import Mathlib

/-!
# Reversible gates over a bit vector

A shallow embedding of `src/c++/include/gates/va.hh` (namespace `va_gate`).

* A `std::vector<bool>` is a `List Bool`.
* The operands of a gate are `uint32_t` values; no arithmetic is ever done on
  them, so they are natural numbers here.
* `bits[i]` is an unchecked subscript in the source.  A subscript outside the
  vector has no defined behaviour, so every access returns an `Option` and
  `none` stands for "no defined result".  The source has no error value of
  any kind, and no property below says what a run does once it subscripts
  outside the vector.
-/

namespace va_gate

/-! ## Access to the vector -/

/-- Reading `bits[i]` as a `bool`; `none` when `i` is not a position of `bits`. -/
def read (bits : List Bool) (i : Nat) : Option Bool :=
  bits[i]?

/-- The assignment `bits[i] = v`; `none` when `i` is not a position of `bits`. -/
def write (bits : List Bool) (i : Nat) (v : Bool) : Option (List Bool) :=
  if i < bits.length then some (bits.set i v) else none

/-! ## The five gates -/

/-- The struct `toffoli_gate` with its fields `c0, c1, x`. -/
structure toffoli_gate where
  c0 : Nat
  c1 : Nat
  x : Nat
  deriving DecidableEq

/-- The struct `fredkin_gate` with its fields `c, a, b`. -/
structure fredkin_gate where
  c : Nat
  a : Nat
  b : Nat
  deriving DecidableEq

/-- The struct `not_gate` with its field `x`. -/
structure not_gate where
  x : Nat
  deriving DecidableEq

/-- The struct `cnot_gate` with its fields `c, x`. -/
structure cnot_gate where
  c : Nat
  x : Nat
  deriving DecidableEq

/-- The struct `swap_gate` with its fields `a, b`. -/
structure swap_gate where
  a : Nat
  b : Nat
  deriving DecidableEq

/-- Method `toffoli_gate::apply`:
`if (bits[c0] && bits[c1]) bits[x] = !bits[x];`
The operator `&&` short-circuits, so `bits[c1]` is read only when `bits[c0]`
holds, and `bits[x]` is touched only when both hold. -/
def toffoli_gate.apply (g : toffoli_gate) (bits : List Bool) : Option (List Bool) := do
  let b0 ← read bits g.c0
  if b0 then
    let b1 ← read bits g.c1
    if b1 then
      let v ← read bits g.x
      write bits g.x (!v)
    else
      pure bits
  else
    pure bits

/-- Method `fredkin_gate::apply`:
```
if (bits[c]) {
  auto const old_a = bits[a];
  bits[a] = bits[b];
  bits[b] = old_a;
}
```
The vector is a non-const `std::vector<bool>`, whose `operator[]` returns the
proxy class `std::vector<bool>::reference`; `auto` keeps that proxy, so
`old_a` designates position `a` and is converted to a `bool` only in the last
statement, after position `a` has been overwritten. -/
def fredkin_gate.apply (g : fredkin_gate) (bits : List Bool) : Option (List Bool) := do
  let bc ← read bits g.c
  if bc then
    -- forming the proxy `old_a` needs `a` to be a position
    let _ ← read bits g.a
    let vb ← read bits g.b
    let bits1 ← write bits g.a vb
    -- `old_a` is read here, through the proxy
    let old_a ← read bits1 g.a
    write bits1 g.b old_a
  else
    pure bits

/-- Method `not_gate::apply`: `bits[x] = !bits[x];` -/
def not_gate.apply (g : not_gate) (bits : List Bool) : Option (List Bool) := do
  let v ← read bits g.x
  write bits g.x (!v)

/-- Method `cnot_gate::apply`: `if (bits[c]) bits[x] = !bits[x];` -/
def cnot_gate.apply (g : cnot_gate) (bits : List Bool) : Option (List Bool) := do
  let bc ← read bits g.c
  if bc then
    let v ← read bits g.x
    write bits g.x (!v)
  else
    pure bits

/-- Method `swap_gate::apply`:
```
auto const old_a = bits[a];
bits[a] = bits[b];
bits[b] = old_a;
```
As in `fredkin_gate::apply`, `old_a` is the proxy for position `a`, read in
the last statement. -/
def swap_gate.apply (g : swap_gate) (bits : List Bool) : Option (List Bool) := do
  -- forming the proxy `old_a` needs `a` to be a position
  let _ ← read bits g.a
  let vb ← read bits g.b
  let bits1 ← write bits g.a vb
  -- `old_a` is read here, through the proxy
  let old_a ← read bits1 g.a
  write bits1 g.b old_a

/-- The variant `gate`, its alternatives in the order of the source
(index 0 to 4: not, cnot, swap, toffoli, fredkin). -/
inductive gate where
  | of_not (g : not_gate)
  | of_cnot (g : cnot_gate)
  | of_swap (g : swap_gate)
  | of_toffoli (g : toffoli_gate)
  | of_fredkin (g : fredkin_gate)
  deriving DecidableEq

/-- The gate `NOT(x)`. -/
abbrev NOT (x : Nat) : gate := gate.of_not ⟨x⟩

/-- The gate `CNOT(c,x)`. -/
abbrev CNOT (c x : Nat) : gate := gate.of_cnot ⟨c, x⟩

/-- The gate `SWAP(a,b)`. -/
abbrev SWAP (a b : Nat) : gate := gate.of_swap ⟨a, b⟩

/-- The gate `TOFFOLI(c0,c1,x)`. -/
abbrev TOFFOLI (c0 c1 x : Nat) : gate := gate.of_toffoli ⟨c0, c1, x⟩

/-- The gate `FREDKIN(c,a,b)`. -/
abbrev FREDKIN (c a b : Nat) : gate := gate.of_fredkin ⟨c, a, b⟩

/-- The call `std::visit([&new_bits](auto const& x) { x.apply(new_bits); }, g)`. -/
def gate.apply : gate → List Bool → Option (List Bool)
  | .of_not g, bits => g.apply bits
  | .of_cnot g, bits => g.apply bits
  | .of_swap g, bits => g.apply bits
  | .of_toffoli g, bits => g.apply bits
  | .of_fredkin g, bits => g.apply bits

/-- Function `apply_gates` (the `std::variant` overload): a copy of `bits` is
taken and each gate of `gs` is applied to it in turn. -/
def apply_gates : List Bool → List gate → Option (List Bool)
  | bits, [] => some bits
  | bits, g :: gs =>
    match g.apply bits with
    | none => none
    | some new_bits => apply_gates new_bits gs

/-! ## Vocabulary of the properties -/

/-- The operand indices of a gate, in declaration order. -/
def gate.operands : gate → List Nat
  | .of_not g => [g.x]
  | .of_cnot g => [g.c, g.x]
  | .of_swap g => [g.a, g.b]
  | .of_toffoli g => [g.c0, g.c1, g.x]
  | .of_fredkin g => [g.c, g.a, g.b]

/-- Every operand of `g` is a position of a vector of length `n`. -/
def gate.valid (g : gate) (n : Nat) : Prop :=
  ∀ i ∈ g.operands, i < n

instance (g : gate) (n : Nat) : Decidable (g.valid n) := by
  unfold gate.valid
  infer_instance

/-- Every gate of the circuit has its operands inside a vector of length `n`. -/
def circuit_valid (gs : List gate) (n : Nat) : Prop :=
  ∀ g ∈ gs, g.valid n

instance (gs : List gate) (n : Nat) : Decidable (circuit_valid gs n) := by
  unfold circuit_valid
  infer_instance

/-- The gate is one of the three flip gates `NOT`, `CNOT`, `TOFFOLI`. -/
def gate.is_flip : gate → Bool
  | .of_not _ => true
  | .of_cnot _ => true
  | .of_swap _ => false
  | .of_toffoli _ => true
  | .of_fredkin _ => false

/-- The control operands of a gate: the positions read by its guard. -/
def gate.controls : gate → List Nat
  | .of_not _ => []
  | .of_cnot g => [g.c]
  | .of_swap _ => []
  | .of_toffoli g => [g.c0, g.c1]
  | .of_fredkin g => [g.c]

/-- The vector `t` is `s` with the bit at position `x` negated and every other
position unchanged. -/
def negated_at (s : List Bool) (x : Nat) (t : List Bool) : Prop :=
  t.length = s.length ∧ t[x]? = (s[x]?).map (fun v => !v) ∧
    ∀ i, i < s.length → i ≠ x → t[i]? = s[i]?

instance (s : List Bool) (x : Nat) (t : List Bool) : Decidable (negated_at s x t) := by
  unfold negated_at
  infer_instance

/-- The vector `t` is `s` with the bits at positions `a` and `b` exchanged and
every other position unchanged. -/
def exchanged_at (s : List Bool) (a b : Nat) (t : List Bool) : Prop :=
  t.length = s.length ∧ t[a]? = s[b]? ∧ t[b]? = s[a]? ∧
    ∀ i, i < s.length → i ≠ a → i ≠ b → t[i]? = s[i]?

instance (s : List Bool) (a b : Nat) (t : List Bool) : Decidable (exchanged_at s a b t) := by
  unfold exchanged_at
  infer_instance

/-- The target operands of a gate: the positions its `apply` assigns to
(`x` for the flip gates, `a` and `b` for the exchange gates). -/
def gate.targets : gate → List Nat
  | .of_not g => [g.x]
  | .of_cnot g => [g.x]
  | .of_swap g => [g.a, g.b]
  | .of_toffoli g => [g.x]
  | .of_fredkin g => [g.a, g.b]

/-! ## The other evaluators of the source -/

/-- The call operator of `visitor` (a template): `g.apply(m_bits)`, reached
through `std::visit(visitor{new_bits}, g)`. -/
def visitor.call : gate → List Bool → Option (List Bool)
  | .of_not g, m_bits => g.apply m_bits
  | .of_cnot g, m_bits => g.apply m_bits
  | .of_swap g, m_bits => g.apply m_bits
  | .of_toffoli g, m_bits => g.apply m_bits
  | .of_fredkin g, m_bits => g.apply m_bits

/-- The five call operators of `explicit_visitor`, each with its own copy of
the gate's body, reached through `std::visit(explicit_visitor{new_bits}, g)`.
In the overloads for `fredkin_gate` and `swap_gate` the variable `old_a` is
again the proxy of position `g.a`. -/
def explicit_visitor.call : gate → List Bool → Option (List Bool)
  | .of_toffoli g, m_bits => do
    let b0 ← read m_bits g.c0
    if b0 then
      let b1 ← read m_bits g.c1
      if b1 then
        let v ← read m_bits g.x
        write m_bits g.x (!v)
      else
        pure m_bits
    else
      pure m_bits
  | .of_fredkin g, m_bits => do
    let bc ← read m_bits g.c
    if bc then
      let _ ← read m_bits g.a
      let vb ← read m_bits g.b
      let bits1 ← write m_bits g.a vb
      let old_a ← read bits1 g.a
      write bits1 g.b old_a
    else
      pure m_bits
  | .of_not g, m_bits => do
    let v ← read m_bits g.x
    write m_bits g.x (!v)
  | .of_cnot g, m_bits => do
    let bc ← read m_bits g.c
    if bc then
      let v ← read m_bits g.x
      write m_bits g.x (!v)
    else
      pure m_bits
  | .of_swap g, m_bits => do
    let _ ← read m_bits g.a
    let vb ← read m_bits g.b
    let bits1 ← write m_bits g.a vb
    let old_a ← read bits1 g.a
    write bits1 g.b old_a

/-- Function `apply_gates_stdvisitor`. -/
def apply_gates_stdvisitor : List Bool → List gate → Option (List Bool)
  | bits, [] => some bits
  | bits, g :: gs =>
    match visitor.call g bits with
    | none => none
    | some new_bits => apply_gates_stdvisitor new_bits gs

/-- Function `apply_gates_explicit_stdvisitor`. -/
def apply_gates_explicit_stdvisitor : List Bool → List gate → Option (List Bool)
  | bits, [] => some bits
  | bits, g :: gs =>
    match explicit_visitor.call g bits with
    | none => none
    | some new_bits => apply_gates_explicit_stdvisitor new_bits gs

/-- The variant `boost_gate`: a `boost::variant` over the same five structs in
the same order. -/
inductive boost_gate where
  | of_not (g : not_gate)
  | of_cnot (g : cnot_gate)
  | of_swap (g : swap_gate)
  | of_toffoli (g : toffoli_gate)
  | of_fredkin (g : fredkin_gate)
  deriving DecidableEq

/-- The member `which()` of a `boost_gate`: the index of the held alternative. -/
def boost_gate.which : boost_gate → Nat
  | .of_not _ => 0
  | .of_cnot _ => 1
  | .of_swap _ => 2
  | .of_toffoli _ => 3
  | .of_fredkin _ => 4

/-- The call `boost::get<not_gate>(g)`; `none` when another alternative is held. -/
def boost_gate.get_not : boost_gate → Option not_gate
  | .of_not g => some g
  | _ => none

/-- The call `boost::get<cnot_gate>(g)`. -/
def boost_gate.get_cnot : boost_gate → Option cnot_gate
  | .of_cnot g => some g
  | _ => none

/-- The call `boost::get<swap_gate>(g)`. -/
def boost_gate.get_swap : boost_gate → Option swap_gate
  | .of_swap g => some g
  | _ => none

/-- The call `boost::get<toffoli_gate>(g)`. -/
def boost_gate.get_toffoli : boost_gate → Option toffoli_gate
  | .of_toffoli g => some g
  | _ => none

/-- The call `boost::get<fredkin_gate>(g)`. -/
def boost_gate.get_fredkin : boost_gate → Option fredkin_gate
  | .of_fredkin g => some g
  | _ => none

/-- The call operator of `gate_vstr` (a template): `g.apply(m_bits)`, reached
through `boost::apply_visitor(vstr, g)`. -/
def gate_vstr.call : boost_gate → List Bool → Option (List Bool)
  | .of_not g, m_bits => g.apply m_bits
  | .of_cnot g, m_bits => g.apply m_bits
  | .of_swap g, m_bits => g.apply m_bits
  | .of_toffoli g, m_bits => g.apply m_bits
  | .of_fredkin g, m_bits => g.apply m_bits

/-- The overload of `apply_gates` for `boost_gates`. -/
def apply_gates_boost : List Bool → List boost_gate → Option (List Bool)
  | bits, [] => some bits
  | bits, g :: gs =>
    match gate_vstr.call g bits with
    | none => none
    | some new_bits => apply_gates_boost new_bits gs

/-- The body of the loop of `apply_which_gates`: the chain of tests on
`id = g.which()`, each branch with its own copy of the gate's body. -/
def apply_which_step (g : boost_gate) (new_bits : List Bool) : Option (List Bool) :=
  let id := g.which
  if id = 0 then do
    let g_ ← g.get_not
    let v ← read new_bits g_.x
    write new_bits g_.x (!v)
  else if id = 1 then do
    let g_ ← g.get_cnot
    let bc ← read new_bits g_.c
    if bc then
      let v ← read new_bits g_.x
      write new_bits g_.x (!v)
    else
      pure new_bits
  else if id = 2 then do
    let g_ ← g.get_swap
    let _ ← read new_bits g_.a
    let vb ← read new_bits g_.b
    let bits1 ← write new_bits g_.a vb
    let old_a ← read bits1 g_.a
    write bits1 g_.b old_a
  else if id = 3 then do
    let g_ ← g.get_toffoli
    let b0 ← read new_bits g_.c0
    if b0 then
      let b1 ← read new_bits g_.c1
      if b1 then
        let v ← read new_bits g_.x
        write new_bits g_.x (!v)
      else
        pure new_bits
    else
      pure new_bits
  else if id = 4 then do
    let g_ ← g.get_fredkin
    let bc ← read new_bits g_.c
    if bc then
      let _ ← read new_bits g_.a
      let vb ← read new_bits g_.b
      let bits1 ← write new_bits g_.a vb
      let old_a ← read bits1 g_.a
      write bits1 g_.b old_a
    else
      pure new_bits
  else
    pure new_bits

/-- Function `apply_which_gates`. -/
def apply_which_gates : List Bool → List boost_gate → Option (List Bool)
  | bits, [] => some bits
  | bits, g :: gs =>
    match apply_which_step g bits with
    | none => none
    | some new_bits => apply_which_gates new_bits gs

/-- The boost circuit element holding the same gate as `g`. -/
def gate.to_boost : gate → boost_gate
  | .of_not g => .of_not g
  | .of_cnot g => .of_cnot g
  | .of_swap g => .of_swap g
  | .of_toffoli g => .of_toffoli g
  | .of_fredkin g => .of_fredkin g

/-- Closed form of the `apply` methods: bit `i` of the state after applying
`g` to `s` when the operands of `g` are inside `s`, written with the bits of
`s` (`s.getD k false` is the bit at position `k`).  It is related to
`gate.apply` by the lemma `gate_apply_getD`. -/
def gate.out : gate → List Bool → Nat → Bool
  | .of_not g, s, i => if i = g.x then !s.getD g.x false else s.getD i false
  | .of_cnot g, s, i =>
    if i = g.x ∧ s.getD g.c false = true then !s.getD g.x false else s.getD i false
  | .of_swap g, s, i => if i = g.a ∨ i = g.b then s.getD g.b false else s.getD i false
  | .of_toffoli g, s, i =>
    if i = g.x ∧ s.getD g.c0 false = true ∧ s.getD g.c1 false = true then !s.getD g.x false
    else s.getD i false
  | .of_fredkin g, s, i =>
    if (i = g.a ∨ i = g.b) ∧ s.getD g.c false = true then s.getD g.b false
    else s.getD i false

/-! ## Printing

A `std::ostream` is the text written to it so far, a `String`; the stream is
taken in its initial formatting state (decimal base, no width, no fill). -/

/-- The insertion `os << "..."` of a string literal. -/
def put_string (os : String) (s : String) : String :=
  os ++ s

/-- The insertion `os << c` of a `char`. -/
def put_char (os : String) (c : Char) : String :=
  os.push c

/-- The insertion `os << n` of a `uint32_t`: the decimal digits of `n`. -/
def put_uint32 (os : String) (n : Nat) : String :=
  os ++ Nat.repr n

/-- Method `toffoli_gate::print`:
`os << "toffoli(" << c0 << ',' << c1 << ',' << x << ')';` -/
def toffoli_gate.print (g : toffoli_gate) (os : String) : String :=
  put_char (put_uint32 (put_char (put_uint32 (put_char (put_uint32
    (put_string os "toffoli(") g.c0) ',') g.c1) ',') g.x) ')'

/-- Method `fredkin_gate::print`:
`os << "fredkin(" << c << ',' << a << ',' << b << ')';` -/
def fredkin_gate.print (g : fredkin_gate) (os : String) : String :=
  put_char (put_uint32 (put_char (put_uint32 (put_char (put_uint32
    (put_string os "fredkin(") g.c) ',') g.a) ',') g.b) ')'

/-- Method `not_gate::print`: `os << "not(" << x << ')';` -/
def not_gate.print (g : not_gate) (os : String) : String :=
  put_char (put_uint32 (put_string os "not(") g.x) ')'

/-- Method `cnot_gate::print`: `os << "cnot(" << c << ',' << x << ')';` -/
def cnot_gate.print (g : cnot_gate) (os : String) : String :=
  put_char (put_uint32 (put_char (put_uint32 (put_string os "cnot(") g.c) ',') g.x) ')'

/-- Method `swap_gate::print`: `os << "swap(" << a << ',' << b << ')';` -/
def swap_gate.print (g : swap_gate) (os : String) : String :=
  put_char (put_uint32 (put_char (put_uint32 (put_string os "swap(") g.a) ',') g.b) ')'

/-- The operator `operator<<(std::ostream& os, gate const& g)`:
`std::visit([&os](auto const& v) -> std::ostream& { return v.print(os); }, g)`. -/
def operator_shl (os : String) : gate → String
  | .of_not v => v.print os
  | .of_cnot v => v.print os
  | .of_swap v => v.print os
  | .of_toffoli v => v.print os
  | .of_fredkin v => v.print os

/-- The number that a list of decimal digit characters denotes. -/
def decimal_value (cs : List Char) : Nat :=
  cs.foldl (fun acc c => 10 * acc + (c.toNat - 48)) 0

/-! ## Lemmas on the access functions and on single gates -/

theorem read_of_lt {bits : List Bool} {i : Nat} (h : i < bits.length) :
    read bits i = some bits[i] := by
  simp [read, h]

theorem write_of_lt {bits : List Bool} {i : Nat} (h : i < bits.length) (v : Bool) :
    write bits i v = some (bits.set i v) := by
  simp [write, h]

theorem not_apply_of_lt {s : List Bool} {x : Nat} (hx : x < s.length) :
    (NOT x).apply s = some (s.set x (!s[x])) := by
  simp [gate.apply, not_gate.apply, read_of_lt hx, write_of_lt hx]

theorem cnot_apply_of_lt {s : List Bool} {c x : Nat} (hc : c < s.length) (hx : x < s.length) :
    (CNOT c x).apply s = some (if s[c] = true then s.set x (!s[x]) else s) := by
  cases h : s[c] <;>
    simp [gate.apply, cnot_gate.apply, read_of_lt hc, read_of_lt hx, write_of_lt hx, h]

theorem toffoli_apply_of_lt {s : List Bool} {c0 c1 x : Nat} (h0 : c0 < s.length)
    (h1 : c1 < s.length) (hx : x < s.length) :
    (TOFFOLI c0 c1 x).apply s
      = some (if s[c0] = true ∧ s[c1] = true then s.set x (!s[x]) else s) := by
  cases e0 : s[c0] <;> cases e1 : s[c1] <;>
    simp [gate.apply, toffoli_gate.apply, read_of_lt h0, read_of_lt h1, read_of_lt hx,
      write_of_lt hx, e0, e1]

/-- What `swap_gate::apply` computes: position `a` receives the bit of `b`, and
position `b` then receives the bit now at `a`. -/
theorem swap_apply_of_lt {s : List Bool} {a b : Nat} (ha : a < s.length) (hb : b < s.length) :
    (SWAP a b).apply s = some ((s.set a s[b]).set b s[b]) := by
  have ha1 : a < (s.set a s[b]).length := by simpa using ha
  have hb1 : b < (s.set a s[b]).length := by simpa using hb
  simp [gate.apply, swap_gate.apply, read_of_lt ha, read_of_lt hb, write_of_lt ha,
    read_of_lt ha1, write_of_lt hb1]

theorem fredkin_apply_of_lt {s : List Bool} {c a b : Nat} (hc : c < s.length)
    (ha : a < s.length) (hb : b < s.length) :
    (FREDKIN c a b).apply s
      = some (if s[c] = true then (s.set a s[b]).set b s[b] else s) := by
  have ha1 : a < (s.set a s[b]).length := by simpa using ha
  have hb1 : b < (s.set a s[b]).length := by simpa using hb
  cases h : s[c] <;>
    simp [gate.apply, fredkin_gate.apply, read_of_lt hc, read_of_lt ha, read_of_lt hb,
      write_of_lt ha, read_of_lt ha1, write_of_lt hb1, h]

theorem apply_gates_single (s : List Bool) (g : gate) :
    apply_gates s [g] = g.apply s := by
  cases h : g.apply s <;> simp [apply_gates, h]

theorem negated_at_set {s : List Bool} {x : Nat} (hx : x < s.length) :
    negated_at s x (s.set x (!s[x])) := by
  refine ⟨by simp, ?_, ?_⟩
  · simp [List.getElem?_set_self hx, List.getElem?_eq_getElem hx]
  · intro i _ hne
    exact List.getElem?_set_ne (Ne.symm hne)

theorem gate_apply_of_valid {s : List Bool} {g : gate} (hv : g.valid s.length) :
    ∃ t, g.apply s = some t ∧ t.length = s.length := by
  cases g with
  | of_not g =>
    obtain ⟨x⟩ := g
    have hx : x < s.length := by simpa [gate.valid, gate.operands] using hv
    exact ⟨_, not_apply_of_lt hx, by simp⟩
  | of_cnot g =>
    obtain ⟨c, x⟩ := g
    obtain ⟨hc, hx⟩ : c < s.length ∧ x < s.length := by
      simpa [gate.valid, gate.operands] using hv
    refine ⟨_, cnot_apply_of_lt hc hx, ?_⟩
    split <;> simp
  | of_swap g =>
    obtain ⟨a, b⟩ := g
    obtain ⟨ha, hb⟩ : a < s.length ∧ b < s.length := by
      simpa [gate.valid, gate.operands] using hv
    exact ⟨_, swap_apply_of_lt ha hb, by simp⟩
  | of_toffoli g =>
    obtain ⟨c0, c1, x⟩ := g
    obtain ⟨h0, h1, hx⟩ : c0 < s.length ∧ c1 < s.length ∧ x < s.length := by
      simpa [gate.valid, gate.operands] using hv
    refine ⟨_, toffoli_apply_of_lt h0 h1 hx, ?_⟩
    split <;> simp
  | of_fredkin g =>
    obtain ⟨c, a, b⟩ := g
    obtain ⟨hc, ha, hb⟩ : c < s.length ∧ a < s.length ∧ b < s.length := by
      simpa [gate.valid, gate.operands] using hv
    refine ⟨_, fredkin_apply_of_lt hc ha hb, ?_⟩
    split <;> simp

/-! ## Lemmas on circuits -/

theorem apply_gates_cons (s : List Bool) (g : gate) (gs : List gate) :
    apply_gates s (g :: gs) = (g.apply s).bind (fun t => apply_gates t gs) := by
  cases h : g.apply s <;> simp [apply_gates, h]

theorem apply_gates_append_bind (s : List Bool) (gs hs : List gate) :
    apply_gates s (gs ++ hs) = (apply_gates s gs).bind (fun t => apply_gates t hs) := by
  induction gs generalizing s with
  | nil => simp [apply_gates]
  | cons g gs ih =>
    rw [List.cons_append, apply_gates_cons, apply_gates_cons]
    cases g.apply s with
    | none => rfl
    | some t => simpa using ih t

theorem apply_gates_of_valid {gs : List gate} {s : List Bool}
    (hv : circuit_valid gs s.length) :
    ∃ t, apply_gates s gs = some t ∧ t.length = s.length := by
  induction gs generalizing s with
  | nil => exact ⟨s, rfl, rfl⟩
  | cons g gs ih =>
    obtain ⟨t, ht, hlen⟩ := gate_apply_of_valid (hv g (List.mem_cons_self g gs))
    have hv1 : circuit_valid gs t.length := by
      intro h hh
      rw [hlen]
      exact hv h (List.mem_cons_of_mem g hh)
    obtain ⟨u, hu, hlen1⟩ := ih hv1
    exact ⟨u, by rw [apply_gates_cons, ht]; simpa using hu, hlen1.trans hlen⟩

/-! ## Sequential composition and the empty circuit -/

/-- C1: a circuit is evaluated left to right against the working state: for
circuits `gs` and `hs` with operands inside `s`, running `gs ++ hs` from `s`
returns the state that running `hs` returns from the state returned by `gs`
(and both runs do return a state); on `[false,true,false]` the circuit
`[CNOT(1,0), TOFFOLI(0,1,2)]` returns `[true,true,true]`. -/
theorem apply_gates_append (s : List Bool) (gs hs : List gate)
    (hg : circuit_valid gs s.length) (hh : circuit_valid hs s.length) :
    (∃ t u, apply_gates s gs = some t ∧ apply_gates t hs = some u ∧
        apply_gates s (gs ++ hs) = some u) ∧
      apply_gates [false, true, false] [CNOT 1 0, TOFFOLI 0 1 2]
        = some [true, true, true] := by
  refine ⟨?_, by decide⟩
  obtain ⟨t, ht, hlen⟩ := apply_gates_of_valid hg
  obtain ⟨u, hu, _⟩ := apply_gates_of_valid (s := t) (by rw [hlen]; exact hh)
  exact ⟨t, u, ht, hu, by rw [apply_gates_append_bind, ht]; simpa using hu⟩

theorem apply_gates_append_witness :
    (∃ t u, apply_gates [false, true, false] [CNOT 1 0] = some t ∧
        apply_gates t [TOFFOLI 0 1 2] = some u ∧
        apply_gates [false, true, false] ([CNOT 1 0] ++ [TOFFOLI 0 1 2]) = some u) ∧
      apply_gates [false, true, false] [CNOT 1 0, TOFFOLI 0 1 2]
        = some [true, true, true] :=
  apply_gates_append [false, true, false] [CNOT 1 0] [TOFFOLI 0 1 2] (by decide) (by decide)

/-- C10: the empty circuit returns a vector equal to the initial state. -/
theorem apply_gates_nil (s : List Bool) : apply_gates s [] = some s :=
  rfl

/-! ## The flip gates -/

/-- C2: for a position `x` of `s`, the circuit `[NOT(x)]` returns `s` with the
bit at `x` negated and every other position unchanged. -/
theorem not_gate_negates (s : List Bool) (x : Nat) (hx : x < s.length) :
    ∃ t, apply_gates s [NOT x] = some t ∧ negated_at s x t :=
  ⟨_, by rw [apply_gates_single, not_apply_of_lt hx], negated_at_set hx⟩

theorem not_gate_negates_witness :
    ∃ t, apply_gates [true, false, true] [NOT 1] = some t ∧
      negated_at [true, false, true] 1 t :=
  not_gate_negates [true, false, true] 1 (by decide)

/-- C3: for positions `c` and `x` of `s` (possibly equal), the circuit
`[CNOT(c,x)]` returns `s` with the bit at `x` negated when `s[c]` is true, and
returns `s` itself when `s[c]` is false. -/
theorem cnot_gate_negates (s : List Bool) (c x : Nat) (hc : c < s.length)
    (hx : x < s.length) :
    (s[c] = true → ∃ t, apply_gates s [CNOT c x] = some t ∧ negated_at s x t) ∧
      (s[c] = false → apply_gates s [CNOT c x] = some s) := by
  rw [apply_gates_single, cnot_apply_of_lt hc hx]
  constructor
  · intro h
    exact ⟨_, by rw [if_pos h], negated_at_set hx⟩
  · intro h
    simp [h]

theorem cnot_gate_negates_witness :
    ∃ t, apply_gates [true, false] [CNOT 0 0] = some t ∧ negated_at [true, false] 0 t :=
  (cnot_gate_negates [true, false] 0 0 (by decide) (by decide)).1 (by decide)

/-- C4: for positions `c0`, `c1` and `x` of `s` (possibly coinciding), the
circuit `[TOFFOLI(c0,c1,x)]` returns `s` with the bit at `x` negated when
`s[c0]` and `s[c1]` are both true, and returns `s` itself otherwise. -/
theorem toffoli_gate_negates (s : List Bool) (c0 c1 x : Nat) (h0 : c0 < s.length)
    (h1 : c1 < s.length) (hx : x < s.length) :
    (s[c0] = true ∧ s[c1] = true →
        ∃ t, apply_gates s [TOFFOLI c0 c1 x] = some t ∧ negated_at s x t) ∧
      (¬ (s[c0] = true ∧ s[c1] = true) → apply_gates s [TOFFOLI c0 c1 x] = some s) := by
  rw [apply_gates_single, toffoli_apply_of_lt h0 h1 hx]
  constructor
  · intro h
    exact ⟨_, by rw [if_pos h], negated_at_set hx⟩
  · intro h
    rw [if_neg h]

theorem toffoli_gate_negates_witness :
    ∃ t, apply_gates [true, true, false] [TOFFOLI 0 1 1] = some t ∧
      negated_at [true, true, false] 1 t :=
  (toffoli_gate_negates [true, true, false] 0 1 1 (by decide) (by decide) (by decide)).1
    (by decide)

/-! ## Self-inverse flip gates -/

theorem set_not_twice {s : List Bool} {x : Nat} (hx : x < s.length)
    (hx1 : x < (s.set x (!s[x])).length) :
    (s.set x (!s[x])).set x (!(s.set x (!s[x]))[x]) = s := by
  apply List.ext_getElem?
  intro i
  by_cases h : x = i
  · subst h
    simp [List.getElem?_set_self hx, List.getElem?_eq_getElem hx]
  · simp [List.getElem?_set_ne h]

/-- C8: a flip gate (`NOT`, `CNOT` or `TOFFOLI`) with operands inside `s`,
whose control positions hold the same values after one application as in
`s`, restores `s` when applied twice in a row. -/
theorem flip_gate_twice (s : List Bool) (g : gate) (hflip : g.is_flip = true)
    (hv : g.valid s.length)
    (hc : ∃ t, apply_gates s [g] = some t ∧ ∀ c ∈ g.controls, t[c]? = s[c]?) :
    apply_gates s [g, g] = some s := by
  obtain ⟨t, ht, hctl⟩ := hc
  rw [apply_gates_single] at ht
  have h2 : apply_gates s [g, g] = g.apply t := by
    rw [apply_gates_cons, ht]
    simp [apply_gates_single]
  rw [h2]
  cases g with
  | of_swap g => simp [gate.is_flip] at hflip
  | of_fredkin g => simp [gate.is_flip] at hflip
  | of_not g =>
    obtain ⟨x⟩ := g
    have hx : x < s.length := by simpa [gate.valid, gate.operands] using hv
    rw [not_apply_of_lt hx] at ht
    have ht1 : s.set x (!s[x]) = t := by simpa using ht
    subst ht1
    have hx1 : x < (s.set x (!s[x])).length := by simpa using hx
    rw [not_apply_of_lt hx1, set_not_twice hx hx1]
  | of_cnot g =>
    obtain ⟨c, x⟩ := g
    obtain ⟨hc, hx⟩ : c < s.length ∧ x < s.length := by
      simpa [gate.valid, gate.operands] using hv
    rw [cnot_apply_of_lt hc hx] at ht
    have hk : t[c]? = s[c]? := hctl c (by simp [gate.controls])
    cases e : s[c] with
    | false =>
      have ht1 : s = t := by simpa [e] using ht
      subst ht1
      rw [cnot_apply_of_lt hc hx]
      simp [e]
    | true =>
      have ht1 : s.set x (!s[x]) = t := by simpa [e] using ht
      subst ht1
      have hc1 : c < (s.set x (!s[x])).length := by simpa using hc
      have hx1 : x < (s.set x (!s[x])).length := by simpa using hx
      have e1 : (s.set x (!s[x]))[c] = true := by
        rw [List.getElem?_eq_getElem hc1, List.getElem?_eq_getElem hc, e] at hk
        simpa using hk
      rw [cnot_apply_of_lt hc1 hx1, if_pos e1, set_not_twice hx hx1]
  | of_toffoli g =>
    obtain ⟨c0, c1, x⟩ := g
    obtain ⟨h0, h1, hx⟩ : c0 < s.length ∧ c1 < s.length ∧ x < s.length := by
      simpa [gate.valid, gate.operands] using hv
    rw [toffoli_apply_of_lt h0 h1 hx] at ht
    have hk0 : t[c0]? = s[c0]? := hctl c0 (by simp [gate.controls])
    have hk1 : t[c1]? = s[c1]? := hctl c1 (by simp [gate.controls])
    by_cases e : s[c0] = true ∧ s[c1] = true
    · have ht1 : s.set x (!s[x]) = t := by simpa [e] using ht
      subst ht1
      have h01 : c0 < (s.set x (!s[x])).length := by simpa using h0
      have h11 : c1 < (s.set x (!s[x])).length := by simpa using h1
      have hx1 : x < (s.set x (!s[x])).length := by simpa using hx
      have e0 : (s.set x (!s[x]))[c0] = true := by
        rw [List.getElem?_eq_getElem h01, List.getElem?_eq_getElem h0, e.1] at hk0
        simpa using hk0
      have e1 : (s.set x (!s[x]))[c1] = true := by
        rw [List.getElem?_eq_getElem h11, List.getElem?_eq_getElem h1, e.2] at hk1
        simpa using hk1
      rw [toffoli_apply_of_lt h01 h11 hx1, if_pos ⟨e0, e1⟩, set_not_twice hx hx1]
    · have ht1 : s = t := by simpa [e] using ht
      subst ht1
      rw [toffoli_apply_of_lt h0 h1 hx, if_neg e]

theorem flip_gate_twice_witness :
    apply_gates [true, true, false] [TOFFOLI 0 1 2, TOFFOLI 0 1 2]
      = some [true, true, false] :=
  flip_gate_twice [true, true, false] (TOFFOLI 0 1 2) (by decide) (by decide)
    ⟨[true, true, true], by decide, by decide⟩

/-! ## The exchange gates -/

/-- C5 (defect of `swap_gate::apply`): on `[true,false]` the circuit
`[SWAP(0,1)]` returns `[false,false]`, which is not `[true,false]` with the two
bits exchanged (that would be `[false,true]`): the saved `old_a` is the proxy
of position `a`, read after position `a` was overwritten. -/
theorem swap_gate_overwrites :
    apply_gates [true, false] [SWAP 0 1] = some [false, false] ∧
      ¬ exchanged_at [true, false] 0 1 [false, false] := by
  decide

/-- C6 (defect of `fredkin_gate::apply`): on `[true,true,false]` the circuit
`[FREDKIN(0,1,2)]`, whose control bit is true, returns `[true,false,false]`,
which is not the state with bits 1 and 2 exchanged (`[true,false,true]`). -/
theorem fredkin_gate_overwrites :
    apply_gates [true, true, false] [FREDKIN 0 1 2] = some [true, false, false] ∧
      ¬ exchanged_at [true, true, false] 1 2 [true, false, false] := by
  decide

/-- C9 (same defect): `[SWAP(0,1), SWAP(0,1)]` on `[true,false]` returns
`[false,false]` and not `[true,false]`; `[FREDKIN(0,1,2), FREDKIN(0,1,2)]` on
`[true,true,false]`, where the control bit stays true, returns
`[true,false,false]` and not `[true,true,false]`. -/
theorem exchange_twice_not_restored :
    apply_gates [true, false] [SWAP 0 1, SWAP 0 1] = some [false, false] ∧
      apply_gates [true, true, false] [FREDKIN 0 1 2] = some [true, false, false] ∧
      apply_gates [true, true, false] [FREDKIN 0 1 2, FREDKIN 0 1 2]
        = some [true, false, false] := by
  decide

/-! ## Operands outside the vector -/

theorem cnot_apply_of_guard_false {t : List Bool} {c : Nat} (x : Nat)
    (h : t[c]? = some false) : (CNOT c x).apply t = some t := by
  simp [gate.apply, cnot_gate.apply, read, h]

theorem toffoli_apply_of_guard_false {t : List Bool} {c0 c1 : Nat} (x : Nat)
    (h : t[c0]? = some false ∨ (t[c0]? = some true ∧ t[c1]? = some false)) :
    (TOFFOLI c0 c1 x).apply t = some t := by
  rcases h with h | ⟨h0, h1⟩
  · simp [gate.apply, toffoli_gate.apply, read, h]
  · simp [gate.apply, toffoli_gate.apply, read, h0, h1]

theorem fredkin_apply_of_guard_false {t : List Bool} {c : Nat} (a b : Nat)
    (h : t[c]? = some false) : (FREDKIN c a b).apply t = some t := by
  simp [gate.apply, fredkin_gate.apply, read, h]

theorem apply_gates_skip {s t u : List Bool} {pre post : List gate} {g : gate}
    (hpre : apply_gates s pre = some t) (hg : g.apply t = some t)
    (hpost : apply_gates t post = some u) : apply_gates s (pre ++ g :: post) = some u := by
  rw [apply_gates_append_bind, hpre, Option.some_bind, apply_gates_cons, hg,
    Option.some_bind, hpost]

/-- C7 (counterexample): the source has no bounds check.  `CNOT(0,5)` has an
operand that is not a position of a vector of length 3, yet on
`[false,false,false]` the run does not fail: the guard is false, position 5
is never subscripted, the state is returned, and in `[CNOT(0,5), NOT(1)]` the
later gate is applied. -/
theorem out_of_range_operand_ignored :
    ¬ (CNOT 0 5).valid 3 ∧
      apply_gates [false, false, false] [CNOT 0 5] = some [false, false, false] ∧
      apply_gates [false, false, false] [CNOT 0 5, NOT 1] = some [false, true, false] := by
  decide

/-- C7 (amended): an operand that a gate never subscripts does not stop the
evaluation, whether or not it is a position of the vector.  When the gates
before it bring `s` to the working state `t`, a `CNOT(c,x)` with `t[c]` false,
a `TOFFOLI(c0,c1,x)` with `t[c0]` false (or `t[c0]` true and `t[c1]` false) and
a `FREDKIN(c,a,b)` with `t[c]` false leave `t` unchanged for all values of
their remaining operands: the later gates are applied to `t` and the state
they return is the result. -/
theorem guarded_gate_skipped (s t u : List Bool) (pre post : List gate)
    (hpre : apply_gates s pre = some t) (hpost : apply_gates t post = some u) :
    (∀ c x, t[c]? = some false → apply_gates s (pre ++ CNOT c x :: post) = some u) ∧
      (∀ c0 c1 x, t[c0]? = some false ∨ (t[c0]? = some true ∧ t[c1]? = some false) →
        apply_gates s (pre ++ TOFFOLI c0 c1 x :: post) = some u) ∧
      (∀ c a b, t[c]? = some false →
        apply_gates s (pre ++ FREDKIN c a b :: post) = some u) :=
  ⟨fun _ x h => apply_gates_skip hpre (cnot_apply_of_guard_false x h) hpost,
    fun _ _ x h => apply_gates_skip hpre (toffoli_apply_of_guard_false x h) hpost,
    fun _ a b h => apply_gates_skip hpre (fredkin_apply_of_guard_false a b h) hpost⟩

theorem guarded_gate_skipped_witness :
    apply_gates [false, true, false] ([NOT 0] ++ TOFFOLI 0 2 7 :: [NOT 1])
      = some [true, false, false] :=
  (guarded_gate_skipped [false, true, false] [true, true, false] [true, false, false]
    [NOT 0] [NOT 1] (by decide) (by decide)).2.1 0 2 7 (by decide)

/-! ## Order of the gates -/

/-- C11: the evaluator is order sensitive: on `[false,true,false]` the gates
`CNOT(1,0)` and `TOFFOLI(0,1,2)`, which share operands and have all operands
inside the state, give `[true,true,true]` in one order and `[true,true,false]`
in the other. -/
theorem apply_gates_order_sensitive :
    ∃ (s : List Bool) (g1 g2 : gate),
      (∃ i, i ∈ g1.operands ∧ i ∈ g2.operands) ∧ g1.valid s.length ∧ g2.valid s.length ∧
        apply_gates s [g1, g2] = some [true, true, true] ∧
        apply_gates s [g2, g1] = some [true, true, false] ∧
        apply_gates s [g1, g2] ≠ apply_gates s [g2, g1] :=
  ⟨[false, true, false], CNOT 1 0, TOFFOLI 0 1 2, ⟨0, by decide, by decide⟩, by decide,
    by decide, by decide, by decide, by decide⟩

/-! ## The five evaluators -/

theorem visitor_call_eq (g : gate) (bits : List Bool) : visitor.call g bits = g.apply bits := by
  cases g <;> rfl

theorem explicit_visitor_call_eq (g : gate) (bits : List Bool) :
    explicit_visitor.call g bits = g.apply bits := by
  cases g <;> rfl

theorem gate_vstr_call_eq (g : gate) (bits : List Bool) :
    gate_vstr.call g.to_boost bits = g.apply bits := by
  cases g <;> rfl

theorem apply_which_step_eq (g : gate) (bits : List Bool) :
    apply_which_step g.to_boost bits = g.apply bits := by
  cases g <;> rfl

theorem apply_gates_stdvisitor_eq (s : List Bool) (gs : List gate) :
    apply_gates_stdvisitor s gs = apply_gates s gs := by
  induction gs generalizing s with
  | nil => rfl
  | cons g gs ih =>
    simp only [apply_gates_stdvisitor, apply_gates, visitor_call_eq]
    cases g.apply s with
    | none => rfl
    | some t => exact ih t

theorem apply_gates_explicit_stdvisitor_eq (s : List Bool) (gs : List gate) :
    apply_gates_explicit_stdvisitor s gs = apply_gates s gs := by
  induction gs generalizing s with
  | nil => rfl
  | cons g gs ih =>
    simp only [apply_gates_explicit_stdvisitor, apply_gates, explicit_visitor_call_eq]
    cases g.apply s with
    | none => rfl
    | some t => exact ih t

theorem apply_gates_boost_eq (s : List Bool) (gs : List gate) :
    apply_gates_boost s (gs.map gate.to_boost) = apply_gates s gs := by
  induction gs generalizing s with
  | nil => rfl
  | cons g gs ih =>
    simp only [List.map_cons, apply_gates_boost, apply_gates, gate_vstr_call_eq]
    cases g.apply s with
    | none => rfl
    | some t => exact ih t

theorem apply_which_gates_eq (s : List Bool) (gs : List gate) :
    apply_which_gates s (gs.map gate.to_boost) = apply_gates s gs := by
  induction gs generalizing s with
  | nil => rfl
  | cons g gs ih =>
    simp only [List.map_cons, apply_which_gates, apply_gates, apply_which_step_eq]
    cases g.apply s with
    | none => rfl
    | some t => exact ih t

/-- C13: the five evaluators compute the same function: for a circuit with
operands inside `s`, `apply_gates`, `apply_gates_stdvisitor`,
`apply_gates_explicit_stdvisitor`, the boost overload of `apply_gates` and
`apply_which_gates` (the last two on the same gate sequence held in boost
variants) all return the same state. -/
theorem evaluators_agree (s : List Bool) (gs : List gate) (hv : circuit_valid gs s.length) :
    ∃ t, apply_gates s gs = some t ∧ apply_gates_stdvisitor s gs = some t ∧
      apply_gates_explicit_stdvisitor s gs = some t ∧
      apply_gates_boost s (gs.map gate.to_boost) = some t ∧
      apply_which_gates s (gs.map gate.to_boost) = some t := by
  obtain ⟨t, ht, _⟩ := apply_gates_of_valid hv
  exact ⟨t, ht, by rw [apply_gates_stdvisitor_eq, ht],
    by rw [apply_gates_explicit_stdvisitor_eq, ht], by rw [apply_gates_boost_eq, ht],
    by rw [apply_which_gates_eq, ht]⟩

theorem evaluators_agree_witness :
    ∃ t, apply_gates [true, true, false] [FREDKIN 0 1 2, NOT 0, SWAP 2 0] = some t ∧
      apply_gates_stdvisitor [true, true, false] [FREDKIN 0 1 2, NOT 0, SWAP 2 0] = some t ∧
      apply_gates_explicit_stdvisitor [true, true, false] [FREDKIN 0 1 2, NOT 0, SWAP 2 0]
        = some t ∧
      apply_gates_boost [true, true, false]
        ([FREDKIN 0 1 2, NOT 0, SWAP 2 0].map gate.to_boost) = some t ∧
      apply_which_gates [true, true, false]
        ([FREDKIN 0 1 2, NOT 0, SWAP 2 0].map gate.to_boost) = some t :=
  evaluators_agree [true, true, false] [FREDKIN 0 1 2, NOT 0, SWAP 2 0] (by decide)

/-! ## Frame and length -/

theorem gate_apply_frame {s : List Bool} {g : gate} {i : Nat} (hv : g.valid s.length)
    (hi : i ∉ g.targets) : ∃ t, g.apply s = some t ∧ t.length = s.length ∧ t[i]? = s[i]? := by
  cases g with
  | of_not g =>
    obtain ⟨x⟩ := g
    have hx : x < s.length := by simpa [gate.valid, gate.operands] using hv
    have hne : x ≠ i := by simpa [gate.targets, eq_comm] using hi
    exact ⟨_, not_apply_of_lt hx, by simp, List.getElem?_set_ne hne⟩
  | of_cnot g =>
    obtain ⟨c, x⟩ := g
    obtain ⟨hc, hx⟩ : c < s.length ∧ x < s.length := by
      simpa [gate.valid, gate.operands] using hv
    have hne : x ≠ i := by simpa [gate.targets, eq_comm] using hi
    refine ⟨_, cnot_apply_of_lt hc hx, ?_, ?_⟩
    · split <;> simp
    · split
      · exact List.getElem?_set_ne hne
      · rfl
  | of_swap g =>
    obtain ⟨a, b⟩ := g
    obtain ⟨ha, hb⟩ : a < s.length ∧ b < s.length := by
      simpa [gate.valid, gate.operands] using hv
    obtain ⟨hna, hnb⟩ : a ≠ i ∧ b ≠ i := by simpa [gate.targets, eq_comm] using hi
    refine ⟨_, swap_apply_of_lt ha hb, by simp, ?_⟩
    rw [List.getElem?_set_ne hnb, List.getElem?_set_ne hna]
  | of_toffoli g =>
    obtain ⟨c0, c1, x⟩ := g
    obtain ⟨h0, h1, hx⟩ : c0 < s.length ∧ c1 < s.length ∧ x < s.length := by
      simpa [gate.valid, gate.operands] using hv
    have hne : x ≠ i := by simpa [gate.targets, eq_comm] using hi
    refine ⟨_, toffoli_apply_of_lt h0 h1 hx, ?_, ?_⟩
    · split <;> simp
    · split
      · exact List.getElem?_set_ne hne
      · rfl
  | of_fredkin g =>
    obtain ⟨c, a, b⟩ := g
    obtain ⟨hc, ha, hb⟩ : c < s.length ∧ a < s.length ∧ b < s.length := by
      simpa [gate.valid, gate.operands] using hv
    obtain ⟨hna, hnb⟩ : a ≠ i ∧ b ≠ i := by simpa [gate.targets, eq_comm] using hi
    refine ⟨_, fredkin_apply_of_lt hc ha hb, ?_, ?_⟩
    · split <;> simp
    · split
      · rw [List.getElem?_set_ne hnb, List.getElem?_set_ne hna]
      · rfl

/-- C14: a circuit writes only the target positions of its gates: for a
circuit with operands inside `s` and a position `i` of `s` that is a target
of none of its gates, the returned state holds at `i` the bit `s` holds there
(so a position used only as a control is never modified). -/
theorem apply_gates_frame (s : List Bool) (gs : List gate) (i : Nat)
    (hv : circuit_valid gs s.length) (hi : i < s.length)
    (hnt : ∀ g ∈ gs, i ∉ g.targets) :
    ∃ t, apply_gates s gs = some t ∧ t[i]? = s[i]? := by
  induction gs generalizing s with
  | nil => exact ⟨s, rfl, rfl⟩
  | cons g gs ih =>
    obtain ⟨t, ht, hlen, hti⟩ :=
      gate_apply_frame (hv g (List.mem_cons_self g gs)) (hnt g (List.mem_cons_self g gs))
    have hv1 : circuit_valid gs t.length := by
      intro h hh
      rw [hlen]
      exact hv h (List.mem_cons_of_mem g hh)
    obtain ⟨u, hu, hui⟩ := ih t hv1 (by rw [hlen]; exact hi)
      (fun h hh => hnt h (List.mem_cons_of_mem g hh))
    exact ⟨u, by rw [apply_gates_cons, ht]; simpa using hu, hui.trans hti⟩

theorem apply_gates_frame_witness :
    ∃ t, apply_gates [true, true, false] [CNOT 0 2, TOFFOLI 0 1 2, FREDKIN 0 1 2] = some t ∧
      t[0]? = ([true, true, false] : List Bool)[0]? :=
  apply_gates_frame [true, true, false] [CNOT 0 2, TOFFOLI 0 1 2, FREDKIN 0 1 2] 0
    (by decide) (by decide) (by decide)

/-- C15: evaluation never changes the length of the bit vector: for a circuit
with operands inside `s`, the returned state has as many bits as `s`. -/
theorem apply_gates_length (s : List Bool) (gs : List gate)
    (hv : circuit_valid gs s.length) :
    ∃ t, apply_gates s gs = some t ∧ t.length = s.length :=
  apply_gates_of_valid hv

theorem apply_gates_length_witness :
    ∃ t, apply_gates [true, false, true] [SWAP 0 1, NOT 2, FREDKIN 2 0 1] = some t ∧
      t.length = ([true, false, true] : List Bool).length :=
  apply_gates_length [true, false, true] [SWAP 0 1, NOT 2, FREDKIN 2 0 1] (by decide)


/-! ## What the exchange code computes -/

theorem set_set_getElem?_fst {s : List Bool} {a b : Nat} (ha : a < s.length) (v : Bool) :
    ((s.set a v).set b v)[a]? = some v := by
  by_cases h : b = a
  · subst h
    exact List.getElem?_set_self (by simpa using ha)
  · rw [List.getElem?_set_ne h, List.getElem?_set_self ha]

/-- C16: `old_a` is the proxy of position `a`, so after `SWAP(a,b)` on a state
`s` with `a` and `b` inside, positions `a` and `b` both hold `s[b]` and every
other position is unchanged; `explicit_visitor` and `apply_which_gates`
return the same state, and so does `FREDKIN(c,a,b)` when `s[c]` is true; on
`[true,false]`, `SWAP(0,1)` returns `[false,false]`. -/
theorem swap_gate_copies_b (s : List Bool) (a b : Nat) (ha : a < s.length)
    (hb : b < s.length) :
    (∃ t, apply_gates s [SWAP a b] = some t ∧ t.length = s.length ∧
        t[a]? = s[b]? ∧ t[b]? = s[b]? ∧ (∀ i, i ≠ a → i ≠ b → t[i]? = s[i]?) ∧
        apply_gates_explicit_stdvisitor s [SWAP a b] = some t ∧
        apply_which_gates s [(SWAP a b).to_boost] = some t ∧
        ∀ c (hc : c < s.length), s[c] = true → apply_gates s [FREDKIN c a b] = some t) ∧
      apply_gates [true, false] [SWAP 0 1] = some [false, false] := by
  refine ⟨⟨(s.set a s[b]).set b s[b], ?_, by simp, ?_, ?_, ?_, ?_, ?_, ?_⟩, by decide⟩
  · rw [apply_gates_single, swap_apply_of_lt ha hb]
  · rw [set_set_getElem?_fst ha, List.getElem?_eq_getElem hb]
  · rw [List.getElem?_set_self (by simpa using hb), List.getElem?_eq_getElem hb]
  · intro i hia hib
    rw [List.getElem?_set_ne (Ne.symm hib), List.getElem?_set_ne (Ne.symm hia)]
  · rw [apply_gates_explicit_stdvisitor_eq, apply_gates_single, swap_apply_of_lt ha hb]
  · have h := apply_which_gates_eq s [SWAP a b]
    rw [apply_gates_single, swap_apply_of_lt ha hb] at h
    exact h
  · intro c hc htrue
    rw [apply_gates_single, fredkin_apply_of_lt hc ha hb, if_pos htrue]

theorem swap_gate_copies_b_witness :
    (∃ t, apply_gates [true, false, true] [SWAP 0 1] = some t ∧
        t.length = ([true, false, true] : List Bool).length ∧
        t[0]? = ([true, false, true] : List Bool)[1]? ∧
        t[1]? = ([true, false, true] : List Bool)[1]? ∧
        (∀ i, i ≠ 0 → i ≠ 1 → t[i]? = ([true, false, true] : List Bool)[i]?) ∧
        apply_gates_explicit_stdvisitor [true, false, true] [SWAP 0 1] = some t ∧
        apply_which_gates [true, false, true] [(SWAP 0 1).to_boost] = some t ∧
        ∀ c (hc : c < ([true, false, true] : List Bool).length),
          ([true, false, true] : List Bool)[c] = true →
            apply_gates [true, false, true] [FREDKIN c 0 1] = some t) ∧
      apply_gates [true, false] [SWAP 0 1] = some [false, false] :=
  swap_gate_copies_b [true, false, true] 0 1 (by decide) (by decide)

/-! ## A control that is also the target -/

/-- C19: a `CNOT` whose control is its target is not self-inverse: when `s[c]`
is true, `CNOT(c,c)` returns a state `t` with `t[c]` false, a second
application returns `t` again, so two applications do not restore `s`, and
the two different states `s` and `t` are both mapped to `t`. -/
theorem cnot_self_target (s : List Bool) (c : Nat) (hc : c < s.length)
    (h : s[c] = true) :
    ∃ t, apply_gates s [CNOT c c] = some t ∧ t[c]? = some false ∧
      apply_gates s [CNOT c c, CNOT c c] = some t ∧
      apply_gates s [CNOT c c, CNOT c c] ≠ some s ∧
      t ≠ s ∧ apply_gates t [CNOT c c] = some t := by
  have hc1 : c < (s.set c false).length := by simpa using hc
  have h1 : (CNOT c c).apply s = some (s.set c false) := by
    rw [cnot_apply_of_lt hc hc, if_pos h, h]
    rfl
  have hf : (s.set c false)[c] = false := by simp
  have h2 : (CNOT c c).apply (s.set c false) = some (s.set c false) := by
    rw [cnot_apply_of_lt hc1 hc1, if_neg (by simp)]
  have hne : s.set c false ≠ s := by
    intro he
    have h3 : (s.set c false)[c]? = s[c]? := by rw [he]
    rw [List.getElem?_set_self hc, List.getElem?_eq_getElem hc, h] at h3
    cases h3
  have h4 : apply_gates s [CNOT c c, CNOT c c] = some (s.set c false) := by
    rw [apply_gates_cons, h1, Option.some_bind, apply_gates_single, h2]
  refine ⟨s.set c false, by rw [apply_gates_single, h1], List.getElem?_set_self hc, h4, ?_,
    hne, by rw [apply_gates_single, h2]⟩
  rw [h4]
  intro he
  exact hne (Option.some.inj he)

theorem cnot_self_target_witness :
    ∃ t, apply_gates [false, true] [CNOT 1 1] = some t ∧ t[1]? = some false ∧
      apply_gates [false, true] [CNOT 1 1, CNOT 1 1] = some t ∧
      apply_gates [false, true] [CNOT 1 1, CNOT 1 1] ≠ some [false, true] ∧
      t ≠ [false, true] ∧ apply_gates t [CNOT 1 1] = some t :=
  cnot_self_target [false, true] 1 (by decide) (by decide)


/-! ## The closed form of a gate -/

theorem getD_set_false {s : List Bool} {x : Nat} (hx : x < s.length) (v : Bool) (i : Nat) :
    (s.set x v).getD i false = if i = x then v else s.getD i false := by
  rw [List.getD_eq_getElem?_getD, List.getD_eq_getElem?_getD]
  by_cases h : i = x
  · subst h
    simp [List.getElem?_set_self hx]
  · rw [List.getElem?_set_ne (Ne.symm h), if_neg h]

theorem getD_false_of_lt {s : List Bool} {x : Nat} (hx : x < s.length) :
    s.getD x false = s[x] := by
  simp [List.getD_eq_getElem?_getD, List.getElem?_eq_getElem hx]

theorem eq_of_getD_false {s t : List Bool} (hlen : s.length = t.length)
    (h : ∀ i, s.getD i false = t.getD i false) : s = t := by
  apply List.ext_getElem hlen
  intro i h1 h2
  have := h i
  rwa [getD_false_of_lt h1, getD_false_of_lt h2] at this

theorem gate_apply_getD {s : List Bool} {g : gate} (hv : g.valid s.length) :
    ∃ t, g.apply s = some t ∧ t.length = s.length ∧ ∀ i, t.getD i false = g.out s i := by
  cases g with
  | of_not g =>
    obtain ⟨x⟩ := g
    have hx : x < s.length := by simpa [gate.valid, gate.operands] using hv
    refine ⟨_, not_apply_of_lt hx, by simp, fun i => ?_⟩
    simp only [gate.out, getD_set_false hx, getD_false_of_lt hx]
  | of_cnot g =>
    obtain ⟨c, x⟩ := g
    obtain ⟨hc, hx⟩ : c < s.length ∧ x < s.length := by
      simpa [gate.valid, gate.operands] using hv
    refine ⟨_, cnot_apply_of_lt hc hx, by split <;> simp, fun i => ?_⟩
    simp only [gate.out, getD_false_of_lt hx, getD_false_of_lt hc]
    by_cases e : s[c] = true
    · simp only [e, if_true, and_true, getD_set_false hx]
    · rw [if_neg e, if_neg (fun h => e h.2)]
  | of_swap g =>
    obtain ⟨a, b⟩ := g
    obtain ⟨ha, hb⟩ : a < s.length ∧ b < s.length := by
      simpa [gate.valid, gate.operands] using hv
    have hb1 : b < (s.set a s[b]).length := by simpa using hb
    refine ⟨_, swap_apply_of_lt ha hb, by simp, fun i => ?_⟩
    simp only [gate.out, getD_set_false hb1, getD_set_false ha, getD_false_of_lt hb]
    by_cases h1 : i = b <;> by_cases h2 : i = a <;> simp [h1, h2]
  | of_toffoli g =>
    obtain ⟨c0, c1, x⟩ := g
    obtain ⟨h0, h1, hx⟩ : c0 < s.length ∧ c1 < s.length ∧ x < s.length := by
      simpa [gate.valid, gate.operands] using hv
    refine ⟨_, toffoli_apply_of_lt h0 h1 hx, by split <;> simp, fun i => ?_⟩
    simp only [gate.out, getD_false_of_lt hx, getD_false_of_lt h0, getD_false_of_lt h1]
    by_cases e : s[c0] = true ∧ s[c1] = true
    · simp only [e, if_true, and_true, getD_set_false hx]
    · rw [if_neg e, if_neg (fun h => e h.2)]
  | of_fredkin g =>
    obtain ⟨c, a, b⟩ := g
    obtain ⟨hc, ha, hb⟩ : c < s.length ∧ a < s.length ∧ b < s.length := by
      simpa [gate.valid, gate.operands] using hv
    have hb1 : b < (s.set a s[b]).length := by simpa using hb
    refine ⟨_, fredkin_apply_of_lt hc ha hb, by split <;> simp, fun i => ?_⟩
    simp only [gate.out, getD_false_of_lt hb, getD_false_of_lt hc]
    by_cases e : s[c] = true
    · simp only [e, if_true, and_true, getD_set_false hb1, getD_set_false ha]
      by_cases h1 : i = b <;> by_cases h2 : i = a <;> simp [h1, h2]
    · simp [e]

theorem gate_out_of_not_mem {g : gate} {i : Nat} (s : List Bool) (hi : i ∉ g.operands) :
    g.out s i = s.getD i false := by
  cases g <;> simp only [gate.operands, List.mem_cons, List.mem_singleton, not_or,
    List.not_mem_nil, or_false] at hi <;> simp [gate.out, hi]

theorem gate_out_congr {g : gate} {i : Nat} {s u : List Bool}
    (h : ∀ k ∈ g.operands, s.getD k false = u.getD k false) (hi : i ∈ g.operands) :
    g.out s i = g.out u i := by
  have hi1 := h i hi
  cases g <;> simp only [gate.operands, List.mem_cons, List.mem_singleton, forall_eq_or_imp,
    forall_eq, List.not_mem_nil, or_false, false_implies, implies_true, and_true] at h <;>
    simp only [gate.out, h, hi1]


/-! ## Circuits of flip gates are undone by their reverse -/

theorem flip_apply_twice {s : List Bool} {g : gate} (hflip : g.is_flip = true)
    (hv : g.valid s.length) (hct : ∀ c ∈ g.controls, c ∉ g.targets) :
    ∃ t, g.apply s = some t ∧ t.length = s.length ∧ g.apply t = some s := by
  obtain ⟨t, ht, hlen, hout⟩ := gate_apply_getD hv
  obtain ⟨u, hu, hlen1, hout1⟩ := gate_apply_getD (s := t) (by rw [hlen]; exact hv)
  refine ⟨t, ht, hlen, ?_⟩
  rw [hu]
  congr 1
  apply eq_of_getD_false (hlen1.trans hlen)
  intro i
  rw [hout1]
  cases g with
  | of_swap g => simp [gate.is_flip] at hflip
  | of_fredkin g => simp [gate.is_flip] at hflip
  | of_not g =>
    simp only [gate.out] at hout ⊢
    simp only [hout]
    split_ifs <;> simp_all
  | of_cnot g =>
    have hne : g.c ≠ g.x := by simpa [gate.controls, gate.targets] using hct
    simp only [gate.out] at hout ⊢
    simp only [hout]
    split_ifs <;> simp_all
  | of_toffoli g =>
    obtain ⟨hne0, hne1⟩ : g.c0 ≠ g.x ∧ g.c1 ≠ g.x := by
      simpa [gate.controls, gate.targets] using hct
    simp only [gate.out] at hout ⊢
    simp only [hout]
    split_ifs <;> simp_all

theorem flip_circuit_undo {gs : List gate} {s : List Bool}
    (hflip : ∀ g ∈ gs, g.is_flip = true) (hv : circuit_valid gs s.length)
    (hct : ∀ g ∈ gs, ∀ c ∈ g.controls, c ∉ g.targets) :
    ∃ t, apply_gates s gs = some t ∧ t.length = s.length ∧
      apply_gates t gs.reverse = some s := by
  induction gs generalizing s with
  | nil => exact ⟨s, rfl, rfl, rfl⟩
  | cons g gs ih =>
    have hg := List.mem_cons_self g gs
    obtain ⟨t1, ht1, hlen1, hback1⟩ := flip_apply_twice (hflip g hg) (hv g hg) (hct g hg)
    have hv1 : circuit_valid gs t1.length := by
      intro h hh
      rw [hlen1]
      exact hv h (List.mem_cons_of_mem g hh)
    obtain ⟨t, ht, hlen, hback⟩ := ih (fun h hh => hflip h (List.mem_cons_of_mem g hh)) hv1
      (fun h hh => hct h (List.mem_cons_of_mem g hh))
    refine ⟨t, by rw [apply_gates_cons, ht1]; simpa using ht, hlen.trans hlen1, ?_⟩
    rw [List.reverse_cons, apply_gates_append_bind, hback, Option.some_bind,
      apply_gates_single, hback1]

/-- C17: a circuit made only of `NOT`, `CNOT` and `TOFFOLI` gates, with operands
inside vectors of length `n` and no control equal to the target of its gate,
is undone by its reverse: from every state `s` of length `n` it returns a
state `t` of length `n` from which the reversed circuit returns `s`.  Hence
the circuit is a bijection on the vectors of length `n`: two states with the
same result are equal, and every vector of length `n` is a result. -/
theorem flip_circuit_reverse (n : Nat) (gs : List gate)
    (hflip : ∀ g ∈ gs, g.is_flip = true) (hv : circuit_valid gs n)
    (hct : ∀ g ∈ gs, ∀ c ∈ g.controls, c ∉ g.targets) :
    (∀ s : List Bool, s.length = n →
        ∃ t, t.length = n ∧ apply_gates s gs = some t ∧ apply_gates t gs.reverse = some s) ∧
      (∀ s1 s2 : List Bool, s1.length = n → s2.length = n →
        apply_gates s1 gs = apply_gates s2 gs → s1 = s2) ∧
      (∀ t : List Bool, t.length = n → ∃ s, s.length = n ∧ apply_gates s gs = some t) := by
  refine ⟨?_, ?_, ?_⟩
  · intro s hs
    obtain ⟨t, ht, hlen, hback⟩ := flip_circuit_undo (s := s) hflip (by rw [hs]; exact hv) hct
    exact ⟨t, hlen.trans hs, ht, hback⟩
  · intro s1 s2 h1 h2 heq
    obtain ⟨t1, ht1, _, hback1⟩ := flip_circuit_undo (s := s1) hflip (by rw [h1]; exact hv) hct
    obtain ⟨t2, ht2, _, hback2⟩ := flip_circuit_undo (s := s2) hflip (by rw [h2]; exact hv) hct
    rw [ht1, ht2] at heq
    have ht : t1 = t2 := Option.some.inj heq
    rw [ht, hback2] at hback1
    exact (Option.some.inj hback1).symm
  · intro t ht
    have hflipr : ∀ g ∈ gs.reverse, g.is_flip = true :=
      fun g hg => hflip g (List.mem_reverse.mp hg)
    have hvr : circuit_valid gs.reverse t.length := by
      intro g hg
      rw [ht]
      exact hv g (List.mem_reverse.mp hg)
    have hctr : ∀ g ∈ gs.reverse, ∀ c ∈ g.controls, c ∉ g.targets :=
      fun g hg => hct g (List.mem_reverse.mp hg)
    obtain ⟨s, hs, hlen, hback⟩ := flip_circuit_undo (s := t) hflipr hvr hctr
    rw [List.reverse_reverse] at hback
    exact ⟨s, hlen.trans ht, hback⟩

theorem flip_circuit_reverse_witness :
    (∀ s : List Bool, s.length = 3 →
        ∃ t, t.length = 3 ∧ apply_gates s [CNOT 1 0, TOFFOLI 0 1 2, NOT 1] = some t ∧
          apply_gates t [CNOT 1 0, TOFFOLI 0 1 2, NOT 1].reverse = some s) ∧
      (∀ s1 s2 : List Bool, s1.length = 3 → s2.length = 3 →
        apply_gates s1 [CNOT 1 0, TOFFOLI 0 1 2, NOT 1]
          = apply_gates s2 [CNOT 1 0, TOFFOLI 0 1 2, NOT 1] → s1 = s2) ∧
      (∀ t : List Bool, t.length = 3 →
        ∃ s, s.length = 3 ∧ apply_gates s [CNOT 1 0, TOFFOLI 0 1 2, NOT 1] = some t) :=
  flip_circuit_reverse 3 [CNOT 1 0, TOFFOLI 0 1 2, NOT 1] (by decide) (by decide) (by decide)

/-! ## Gates on disjoint positions -/

/-- C18: two gates with operands inside `s` and no operand in common commute:
the circuits `[g1, g2]` and `[g2, g1]` return the same state from `s`. -/
theorem disjoint_gates_commute (s : List Bool) (g1 g2 : gate) (h1 : g1.valid s.length)
    (h2 : g2.valid s.length) (hd : ∀ i ∈ g1.operands, i ∉ g2.operands) :
    ∃ t, apply_gates s [g1, g2] = some t ∧ apply_gates s [g2, g1] = some t := by
  obtain ⟨t1, ht1, hl1, ho1⟩ := gate_apply_getD h1
  obtain ⟨u, hu, hlu, hou⟩ := gate_apply_getD (s := t1) (g := g2) (by rw [hl1]; exact h2)
  obtain ⟨t2, ht2, hl2, ho2⟩ := gate_apply_getD h2
  obtain ⟨w, hw, hlw, how⟩ := gate_apply_getD (s := t2) (g := g1) (by rw [hl2]; exact h1)
  have huw : w = u := by
    apply eq_of_getD_false (by rw [hlw, hl2, hlu, hl1])
    intro i
    rw [how, hou]
    by_cases hi1 : i ∈ g1.operands
    · have hi2 : i ∉ g2.operands := hd i hi1
      rw [gate_out_of_not_mem t1 hi2, ho1]
      apply gate_out_congr _ hi1
      intro k hk
      rw [ho2, gate_out_of_not_mem s (hd k hk)]
    · rw [gate_out_of_not_mem t2 hi1, ho2]
      by_cases hi2 : i ∈ g2.operands
      · apply gate_out_congr _ hi2
        intro k hk
        rw [ho1, gate_out_of_not_mem s (fun hk1 => hd k hk1 hk)]
      · rw [gate_out_of_not_mem s hi2, gate_out_of_not_mem t1 hi2, ho1,
          gate_out_of_not_mem s hi1]
  refine ⟨u, ?_, ?_⟩
  · rw [apply_gates_cons, ht1, Option.some_bind, apply_gates_single, hu]
  · rw [apply_gates_cons, ht2, Option.some_bind, apply_gates_single, hw, huw]

theorem disjoint_gates_commute_witness :
    ∃ t, apply_gates [true, false, true, true, false] [SWAP 0 1, FREDKIN 2 3 4] = some t ∧
      apply_gates [true, false, true, true, false] [FREDKIN 2 3 4, SWAP 0 1] = some t :=
  disjoint_gates_commute [true, false, true, true, false] (SWAP 0 1) (FREDKIN 2 3 4)
    (by decide) (by decide) (by decide)


/-! ## Printing -/

theorem digitChar_spec {k : Nat} (hk : k < 10) :
    (Nat.digitChar k).toNat - 48 = k ∧ (Nat.digitChar k).isDigit = true := by
  interval_cases k <;> decide

theorem toDigitsCore_append (f n : Nat) (ds : List Char) :
    Nat.toDigitsCore 10 f n ds = Nat.toDigitsCore 10 f n [] ++ ds := by
  induction f generalizing n ds with
  | zero => simp [Nat.toDigitsCore]
  | succ f ih =>
    simp only [Nat.toDigitsCore]
    split
    · simp
    · rw [ih (n / 10) (Nat.digitChar (n % 10) :: ds), ih (n / 10) [Nat.digitChar (n % 10)]]
      simp

theorem decimal_value_append_singleton (cs : List Char) (c : Char) :
    decimal_value (cs ++ [c]) = 10 * decimal_value cs + (c.toNat - 48) := by
  simp [decimal_value, List.foldl_append]

theorem toDigitsCore_spec (f n : Nat) (h : n < f) :
    decimal_value (Nat.toDigitsCore 10 f n []) = n ∧
      ∀ ch ∈ Nat.toDigitsCore 10 f n [], ch.isDigit = true := by
  induction f generalizing n with
  | zero => omega
  | succ f ih =>
    have hd := digitChar_spec (Nat.mod_lt n (by decide : 0 < 10))
    simp only [Nat.toDigitsCore]
    split
    · rename_i h0
      refine ⟨?_, ?_⟩
      · have : decimal_value [Nat.digitChar (n % 10)] = (Nat.digitChar (n % 10)).toNat - 48 := by
          simp [decimal_value]
        rw [this, hd.1]
        omega
      · intro ch hch
        rw [List.mem_singleton.mp hch]
        exact hd.2
    · rename_i h0
      have hlt : n / 10 < f := by omega
      obtain ⟨hv, hdig⟩ := ih (n / 10) hlt
      rw [toDigitsCore_append]
      refine ⟨?_, ?_⟩
      · rw [decimal_value_append_singleton, hv, hd.1]
        omega
      · intro ch hch
        rcases List.mem_append.mp hch with h1 | h1
        · exact hdig ch h1
        · rw [List.mem_singleton.mp h1]
          exact hd.2

theorem repr_data_value (n : Nat) : decimal_value (Nat.repr n).data = n :=
  (toDigitsCore_spec (n + 1) n (Nat.lt_succ_self n)).1

theorem repr_data_isDigit (n : Nat) : ∀ ch ∈ (Nat.repr n).data, ch.isDigit = true :=
  (toDigitsCore_spec (n + 1) n (Nat.lt_succ_self n)).2

theorem repr_data_inj {m n : Nat} (h : (Nat.repr m).data = (Nat.repr n).data) : m = n := by
  rw [← repr_data_value m, ← repr_data_value n, h]

theorem digits_split {xs ys r1 r2 : List Char} {c1 c2 : Char}
    (hx : ∀ ch ∈ xs, ch.isDigit = true) (hy : ∀ ch ∈ ys, ch.isDigit = true)
    (h1 : c1.isDigit = false) (h2 : c2.isDigit = false)
    (h : xs ++ c1 :: r1 = ys ++ c2 :: r2) : xs = ys ∧ c1 = c2 ∧ r1 = r2 := by
  induction xs generalizing ys with
  | nil =>
    cases ys with
    | nil => simpa using h
    | cons y ys =>
      simp only [List.nil_append, List.cons_append, List.cons.injEq] at h
      have hy1 := hy y (List.mem_cons_self y ys)
      rw [← h.1, h1] at hy1
      cases hy1
  | cons x xs ih =>
    cases ys with
    | nil =>
      simp only [List.nil_append, List.cons_append, List.cons.injEq] at h
      have hx1 := hx x (List.mem_cons_self x xs)
      rw [h.1, h2] at hx1
      cases hx1
    | cons y ys =>
      simp only [List.cons_append, List.cons.injEq] at h
      obtain ⟨hxy, ht⟩ := h
      obtain ⟨e1, e2, e3⟩ := ih (fun ch hch => hx ch (List.mem_cons_of_mem x hch))
        (fun ch hch => hy ch (List.mem_cons_of_mem y hch)) ht
      exact ⟨by rw [hxy, e1], e2, e3⟩


theorem repr_split {m n : Nat} {r1 r2 : List Char}
    (h : (Nat.repr m).data ++ ',' :: r1 = (Nat.repr n).data ++ ',' :: r2) :
    m = n ∧ r1 = r2 := by
  obtain ⟨e1, _, e3⟩ :=
    digits_split (repr_data_isDigit m) (repr_data_isDigit n) (by decide) (by decide) h
  exact ⟨repr_data_inj e1, e3⟩

theorem repr_split_last {m n : Nat}
    (h : (Nat.repr m).data ++ [')'] = (Nat.repr n).data ++ [')']) : m = n := by
  obtain ⟨e1, _, _⟩ :=
    digits_split (repr_data_isDigit m) (repr_data_isDigit n) (by decide) (by decide) h
  exact repr_data_inj e1

theorem data_not_lit : ("not(" : String).data = ['n', 'o', 't', '('] :=
  rfl

theorem data_cnot_lit : ("cnot(" : String).data = ['c', 'n', 'o', 't', '('] :=
  rfl

theorem data_swap_lit : ("swap(" : String).data = ['s', 'w', 'a', 'p', '('] :=
  rfl

theorem data_toffoli_lit :
    ("toffoli(" : String).data = ['t', 'o', 'f', 'f', 'o', 'l', 'i', '('] :=
  rfl

theorem data_fredkin_lit :
    ("fredkin(" : String).data = ['f', 'r', 'e', 'd', 'k', 'i', 'n', '('] :=
  rfl

/-- C20: the written text identifies the gate: if `operator<<` writes the same
text for two gates (on streams holding the same text before), the gates are of
the same kind and have the same operand values.  The operands range over all
natural numbers, the 32-bit ones among them. -/
theorem operator_shl_injective (os : String) (g1 g2 : gate)
    (h : operator_shl os g1 = operator_shl os g2) : g1 = g2 := by
  have hd := congrArg String.data h
  cases g1 <;> cases g2 <;>
    simp only [operator_shl, not_gate.print, cnot_gate.print, swap_gate.print,
      toffoli_gate.print, fredkin_gate.print, put_string, put_char, put_uint32,
      String.data_append, String.data_push, data_not_lit, data_cnot_lit, data_swap_lit,
      data_toffoli_lit, data_fredkin_lit, List.append_assoc, List.append_cancel_left_eq,
      List.cons_append, List.nil_append, List.cons.injEq, Char.reduceEq, false_and,
      true_and] at hd
  case of_not.of_not a b =>
    obtain ⟨x⟩ := a
    obtain ⟨y⟩ := b
    have e := repr_split_last hd
    simp only [] at e
    rw [e]
  case of_cnot.of_cnot a b =>
    obtain ⟨c, x⟩ := a
    obtain ⟨d, y⟩ := b
    obtain ⟨e1, hr⟩ := repr_split hd
    have e2 := repr_split_last hr
    simp only [] at e1 e2
    rw [e1, e2]
  case of_swap.of_swap a b =>
    obtain ⟨c, x⟩ := a
    obtain ⟨d, y⟩ := b
    obtain ⟨e1, hr⟩ := repr_split hd
    have e2 := repr_split_last hr
    simp only [] at e1 e2
    rw [e1, e2]
  case of_toffoli.of_toffoli a b =>
    obtain ⟨c0, c1, x⟩ := a
    obtain ⟨d0, d1, y⟩ := b
    obtain ⟨e1, hr⟩ := repr_split hd
    obtain ⟨e2, hr2⟩ := repr_split hr
    have e3 := repr_split_last hr2
    simp only [] at e1 e2 e3
    rw [e1, e2, e3]
  case of_fredkin.of_fredkin a b =>
    obtain ⟨c0, c1, x⟩ := a
    obtain ⟨d0, d1, y⟩ := b
    obtain ⟨e1, hr⟩ := repr_split hd
    obtain ⟨e2, hr2⟩ := repr_split hr
    have e3 := repr_split_last hr2
    simp only [] at e1 e2 e3
    rw [e1, e2, e3]

theorem operator_shl_injective_witness :
    operator_shl "" (TOFFOLI 7 0 12) = "toffoli(7,0,12)" ∧ TOFFOLI 7 0 12 = TOFFOLI 7 0 12 :=
  ⟨by decide, operator_shl_injective "" (TOFFOLI 7 0 12) (TOFFOLI 7 0 12) (by decide)⟩

end va_gate
